import Mathlib

set_option maxHeartbeats 1000000

/-!
Verification of the constraint model, evaluator, state update, scoring
heuristics and game loop of `wordle.py`.

Words are lists of characters.  The Python `set` of invalid letters is kept
as a duplicate-free list (the program only ever tests membership).  Python
`list.remove` is modelled by `List.erase`; the two differ only when the
element is absent (Python raises), a situation that does not arise in the
executions the theorems below are about.
-/

/-- Mirror of the `GameState` dataclass: `found_letters` (slot `i` is `none`
or the letter confirmed at position `i`), `loose_letters` (multiset, as a
list), `invalid_letters`, `guesses`, and the candidate list `valid_guesses`. -/
structure GameState where
  found_letters : List (Option Char)
  loose_letters : List Char
  invalid_letters : List Char
  guesses : List (List Char)
  valid_guesses : List (List Char)
  deriving DecidableEq, Repr

/-- A fresh `GameState()`: `found_letters = [None]*5`, empty pools, and
`valid_guesses` initialised to the full word list. -/
def initState (corpus : List (List Char)) : GameState :=
  ⟨[none, none, none, none, none], [], [], [], corpus⟩

/-- `GameState.clone`: copies every field except `valid_guesses`, which the
dataclass default resets to the full word list. -/
def cloneState (corpus : List (List Char)) (s : GameState) : GameState :=
  ⟨s.found_letters, s.loose_letters, s.invalid_letters, s.guesses, corpus⟩

/-- The found-letter scan of `check_word`: walk `zip(word, found_letters)`;
a bound slot whose letter differs from the word's rejects (`none`), a bound
slot that matches removes one instance of that letter from the pool. -/
def scanFound : List Char → List (Option Char) → List Char → Option (List Char)
  | _, [], pool => some pool
  | [], _ :: _, pool => some pool
  | _ :: ws, none :: fs, pool => scanFound ws fs pool
  | wl :: ws, some c :: fs, pool =>
    if wl = c then scanFound ws fs (pool.erase c) else none

/-- The loose-letter loop of `check_word`: every loose letter must be
removable from the remaining pool (duplicates need duplicate slots). -/
def consumeLoose : List Char → List Char → Bool
  | [], _ => true
  | l :: rest, pool => if l ∈ pool then consumeLoose rest (pool.erase l) else false

/-- One past guess `g` triggers the final loop of `check_word` against word
`w` when some position not bound in `found` repeats the same letter. -/
def repeatHit (found : List (Option Char)) (w g : List Char) : Bool :=
  (List.range (min w.length (min g.length found.length))).any fun i =>
    (found.getD i none).isNone && decide (w.getD i '?' = g.getD i '?')

/-- `GameState.check_word`, with the source's four stages in order:
invalid letters, found-letter scan, loose-letter containment, and the
repeat-at-unbound-position loop over past guesses. -/
def checkWord (s : GameState) (w : List Char) : Bool :=
  if w.any (fun l => decide (l ∈ s.invalid_letters)) then false
  else
    match scanFound w s.found_letters w with
    | none => false
    | some pool =>
      if consumeLoose s.loose_letters pool then
        !(s.guesses.any fun g => repeatHit s.found_letters w g)
      else false

/-- Stage 2 of the evaluator in isolation: no letter of `w` is invalid. -/
def invalidCheck (s : GameState) (w : List Char) : Bool :=
  !(w.any fun l => decide (l ∈ s.invalid_letters))

/-- Stages 3 and 4 of the evaluator in isolation: the found-letter scan
succeeds and the remaining pool covers the loose multiset. -/
def foundLooseCheck (s : GameState) (w : List Char) : Bool :=
  match scanFound w s.found_letters w with
  | none => false
  | some pool => consumeLoose s.loose_letters pool

/-- Stage 5 of the evaluator in isolation: no past guess repeats a letter
of `w` at a position not bound in `found`. -/
def repeatMissFree (s : GameState) (w : List Char) : Bool :=
  !(s.guesses.any fun g => repeatHit s.found_letters w g)

/-- Modelled from the spec (§4.1 checks 1–4): the word was not already
guessed, contains no invalid letter, matches every bound found slot, and
covers the loose multiset.  The spec claims these four checks alone make up
the non-hard-mode evaluator. -/
def passesChecks14 (s : GameState) (w : List Char) : Bool :=
  decide (w ∉ s.guesses) && invalidCheck s w && foundLooseCheck s w

/-- The exact-match pass of `add_guess`: for each position where guess and
goal agree, bind the found slot and drop one loose instance of the letter. -/
def exactPass : Nat → List Char → List Char → List (Option Char) → List Char →
    List (Option Char) × List Char
  | _, [], _, f, lo => (f, lo)
  | _, _ :: _, [], f, lo => (f, lo)
  | i, g :: gs, t :: ts, f, lo =>
    if g = t then exactPass (i + 1) gs ts (f.set i (some g)) (lo.erase g)
    else exactPass (i + 1) gs ts f lo

/-- The pool-building pass of `add_guess`: for each bound found slot remove
that letter once from the goal pool, and also from the guess pool when the
guess has it at that very position. -/
def poolPass (guess : List Char) : Nat → List (Option Char) → List Char → List Char →
    List Char × List Char
  | _, [], goalL, guessL => (goalL, guessL)
  | i, none :: fs, goalL, guessL => poolPass guess (i + 1) fs goalL guessL
  | i, some c :: fs, goalL, guessL =>
    poolPass guess (i + 1) fs (goalL.erase c)
      (if guess.getD i '?' = c then guessL.erase c else guessL)

/-- `add_guess` step 4: drop from the loose pool one instance per remaining
guess letter, to avoid re-adding letters already known loose. -/
def removeRepeats : List Char → List Char → List Char
  | [], lo => lo
  | l :: rest, lo => removeRepeats rest (lo.erase l)

/-- `add_guess` step 5: each remaining guess letter still present in the
remaining goal pool is appended to the loose pool and consumed. -/
def moveLoose : List Char → List Char → List Char → List Char × List Char
  | [], lo, goalL => (lo, goalL)
  | l :: rest, lo, goalL =>
    if l ∈ goalL then moveLoose rest (lo ++ [l]) (goalL.erase l)
    else moveLoose rest lo goalL

/-- `add_guess` step 6: every guess letter absent from the goal word joins
the invalid set. -/
def addInvalid (goal : List Char) : List Char → List Char → List Char
  | [], inv => inv
  | l :: rest, inv =>
    addInvalid goal rest (if l ∈ goal then inv else if l ∈ inv then inv else inv ++ [l])

/-- The first six steps of `GameState.add_guess(guess, goal)`: append the
guess, run the exact-match pass, build the two pools, adjust the loose pool
and extend the invalid set (the candidate refilter comes last, below). -/
def updState (s : GameState) (guess goal : List Char) : GameState :=
  let ep := exactPass 0 guess goal s.found_letters s.loose_letters
  let pp := poolPass guess 0 ep.1 goal guess
  ⟨ep.1, (moveLoose pp.2 (removeRepeats pp.2 ep.2) pp.1).1,
    addInvalid goal guess s.invalid_letters,
    s.guesses ++ [guess], s.valid_guesses⟩

/-- `GameState.add_guess(guess, goal)`: the six update steps followed by the
refilter of `valid_guesses` through `check_word` against the updated state. -/
def addGuess (s : GameState) (guess goal : List Char) : GameState :=
  { updState s guess goal with
    valid_guesses := s.valid_guesses.filter fun w => checkWord (updState s guess goal) w }

/-- `MAX_TURNS` from the source. -/
def MAX_TURNS : Nat := 16

/-- The body of `play_game`'s `while turn < MAX_TURNS` loop, with the
remaining number of iterations as fuel. -/
def playGameAux (policy : GameState → List Char) (goal : List Char) :
    Nat → Nat → GameState → Nat
  | 0, turn, _ => turn
  | fuel + 1, turn, s =>
    let g := policy s
    if g = goal then turn + 1
    else playGameAux policy goal fuel (turn + 1) (addGuess s g goal)

/-- `play_game(goal_word, input_source)`: run up to `MAX_TURNS` turns from a
fresh state, returning the turn on which the policy produced the goal, or
`MAX_TURNS` when it never did (the display sink has no effect on state). -/
def playGame (policy : GameState → List Char) (goal : List Char)
    (corpus : List (List Char)) : Nat :=
  playGameAux policy goal MAX_TURNS 0 (initState corpus)

/-- The state of `play_game` after `n` completed (non-winning) turns,
starting from `s`. -/
def stateFrom (policy : GameState → List Char) (goal : List Char) :
    GameState → Nat → GameState
  | s, 0 => s
  | s, n + 1 => stateFrom policy goal (addGuess s (policy s) goal) n

/-- The guess the policy produces on turn `k + 1` of `play_game`. -/
def guessAt (policy : GameState → List Char) (goal : List Char)
    (corpus : List (List Char)) (k : Nat) : List Char :=
  policy (stateFrom policy goal (initState corpus) k)

/-- `get_letter_scores`: the `Counter` over the concatenation of all words,
as the function sending a letter to its number of occurrences. -/
def getLetterScores (ws : List (List Char)) : Char → Nat :=
  fun c => ws.flatten.count c

/-- `get_word_score`: sum of the letter scores over the distinct letters of
the word (`set(word)`). -/
def getWordScore (w : List Char) (letterScore : Char → Nat) : Nat :=
  (w.dedup.map letterScore).sum

/-- Stable descending insertion: a later word goes after earlier words of
equal score, matching the stability of Python's `sorted(..., reverse=True)`. -/
def insertDesc (score : List Char → Nat) (w : List Char) :
    List (List Char) → List (List Char)
  | [] => [w]
  | x :: xs => if score x < score w then w :: x :: xs else x :: insertDesc score w xs

/-- `sorted_words`: the corpus ordered by descending global word score. -/
def sortedWords (corpus : List (List Char)) : List (List Char) :=
  corpus.foldl (fun acc w => insertDesc (fun v => getWordScore v (getLetterScores corpus)) w acc) []

/-- `pick_best_word_v1`: first word of the precomputed order accepted by
`check_word`; `none` models the `StopIteration` of an exhausted `next`. -/
def pickBestWordV1 (corpus : List (List Char)) (s : GameState) : Option (List Char) :=
  (sortedWords corpus).find? fun w => checkWord s w

/-- Python's `max(xs, key=key)`: first element of maximal key (`none` on an
empty list, where Python raises). -/
def pyMax (key : List Char → Nat) : List (List Char) → Option (List Char)
  | [] => none
  | x :: xs => some (xs.foldl (fun acc y => if key acc < key y then y else acc) x)

/-- `pick_best_word_v2`: argmax of the word score over `valid_guesses`, with
letter scores recomputed over `valid_guesses`. -/
def pickBestWordV2 (s : GameState) : Option (List Char) :=
  pyMax (fun w => getWordScore w (getLetterScores s.valid_guesses)) s.valid_guesses

/-- `pick_best_word_v3`: the sole remaining candidate if there is exactly
one, else the argmax over the whole corpus of the score computed from the
current candidates. -/
def pickBestWordV3 (corpus : List (List Char)) (s : GameState) : Option (List Char) :=
  match s.valid_guesses with
  | [x] => some x
  | _ => pyMax (fun w => getWordScore w (getLetterScores s.valid_guesses)) corpus

/-- `pick_best_word_v4`: `v3` while `len(guesses) < 4`, `v2` afterwards. -/
def pickBestWordV4 (corpus : List (List Char)) (s : GameState) : Option (List Char) :=
  if s.guesses.length < 4 then pickBestWordV3 corpus s else pickBestWordV2 s

/-- `eval_word` inside `pick_best_word_v5`: average, over the current
candidates taken as targets, of the candidate count left after playing `w`
on a clone of the state.  Python's number division is modelled as exact
rational division, written `mkRat sum len` (equal to `sum / len` whenever
`len ≠ 0`, and `len = 0` is exactly where Python raises). -/
def evalWordV5 (corpus : List (List Char)) (s : GameState) (w : List Char) : ℚ :=
  mkRat
    ((s.valid_guesses.map fun t =>
      ((addGuess (cloneState corpus s) w t).valid_guesses.length : Int)).sum)
    s.valid_guesses.length

/-- Python's `min` over a list of numbers: keep the running minimum,
replacing it only on strictly smaller values (`none` on an empty list,
where Python raises). -/
def pyMin : List ℚ → Option ℚ
  | [] => none
  | x :: xs => some (xs.foldl (fun acc y => if Rat.blt y acc then y else acc) x)

/-- `pick_best_word_v5`: the source computes all the averages and returns
`min(word_scores)` — the smallest average itself, a number. -/
def pickBestWordV5 (corpus : List (List Char)) (s : GameState) : Option ℚ :=
  pyMin (corpus.map (evalWordV5 corpus s))

/-- States reachable from a fresh `GameState` by honest updates: each turn
some corpus word is fed to `add_guess` together with the true goal word. -/
inductive Reachable (corpus : List (List Char)) (goal : List Char) : GameState → Prop
  | init : Reachable corpus goal (initState corpus)
  | step {s w} : Reachable corpus goal s → w ∈ corpus →
      Reachable corpus goal (addGuess s w goal)

/-! ### Generic list lemmas -/

lemma getD_set_eq_ite {α : Type} (l : List α) (i j : Nat) (v d : α) :
    (l.set i v).getD j d = if i = j ∧ j < l.length then v else l.getD j d := by
  rw [List.getD_eq_getElem?_getD, List.getD_eq_getElem?_getD, List.getElem?_set]
  by_cases hij : i = j
  · subst hij
    by_cases hl : i < l.length
    · simp [hl]
    · have : l[i]? = none := List.getElem?_eq_none (by omega)
      simp [hl, this]
  · simp [hij]

lemma count_set_add (l : List (Option Char)) (i : Nat) (v x d : Option Char)
    (h : i < l.length) :
    (l.set i v).count x + (if l.getD i d = x then 1 else 0)
      = l.count x + (if v = x then 1 else 0) := by
  induction l generalizing i with
  | nil => simp at h
  | cons a l ih =>
    cases i with
    | zero =>
      simp only [List.set_cons_zero, List.count_cons, List.getD_cons_zero, beq_iff_eq]
      omega
    | succ n =>
      simp only [List.set_cons_succ, List.count_cons, List.getD_cons_succ, beq_iff_eq]
      have := ih n (by simp at h; omega)
      omega

lemma exists_getD_ne (l₁ l₂ : List Char) (hlen : l₁.length = l₂.length) (hne : l₁ ≠ l₂) :
    ∃ i, i < l₁.length ∧ l₁.getD i '?' ≠ l₂.getD i '?' := by
  induction l₁ generalizing l₂ with
  | nil =>
    cases l₂ with
    | nil => exact absurd rfl hne
    | cons b t => simp at hlen
  | cons a t ih =>
    cases l₂ with
    | nil => simp at hlen
    | cons b t₂ =>
      by_cases hab : a = b
      · subst hab
        have ht : t ≠ t₂ := fun h => hne (by rw [h])
        obtain ⟨i, hi, hne2⟩ := ih t₂ (by simpa using hlen) ht
        exact ⟨i + 1, by simpa using hi, by simpa using hne2⟩
      · exact ⟨0, by simp, by simpa using hab⟩

lemma count_erase_eq (a c : Char) (l : List Char) :
    (l.erase a).count c = l.count c - (if a = c then 1 else 0) := by
  have := List.count_erase c a l
  simpa using this

lemma count_cons_some (c0 c : Char) (fs : List (Option Char)) :
    (some c0 :: fs).count (some c) = fs.count (some c) + (if c0 = c then 1 else 0) := by
  simp [List.count_cons]

lemma count_cons_none (c : Char) (fs : List (Option Char)) :
    ((none : Option Char) :: fs).count (some c) = fs.count (some c) := by
  simp [List.count_cons]

lemma count_cons_char (a c : Char) (l : List Char) :
    (a :: l).count c = l.count c + (if a = c then 1 else 0) := by
  simp [List.count_cons]

/-! ### Lemmas about the found-letter scan and the loose-letter loop -/

lemma scanFound_succeeds (ws : List Char) (fs : List (Option Char)) (pool : List Char)
    (h : ∀ k, k < ws.length → k < fs.length →
      fs.getD k none = none ∨ fs.getD k none = some (ws.getD k '?')) :
    ∃ pool2, scanFound ws fs pool = some pool2 ∧
      ∀ c, pool.count c ≤ pool2.count c + fs.count (some c) := by
  induction ws generalizing fs pool with
  | nil =>
    cases fs with
    | nil => exact ⟨pool, rfl, fun c => by omega⟩
    | cons f fs => exact ⟨pool, rfl, fun c => by omega⟩
  | cons w ws ih =>
    cases fs with
    | nil => exact ⟨pool, rfl, fun c => by simp⟩
    | cons f fs =>
      cases f with
      | none =>
        obtain ⟨pool2, hp, hc⟩ := ih fs pool (fun k hk1 hk2 => by
          have := h (k + 1) (by simpa using hk1) (by simpa using hk2)
          simpa using this)
        refine ⟨pool2, by simpa [scanFound] using hp, fun c => ?_⟩
        rw [count_cons_none]
        exact hc c
      | some c0 =>
        have h0 := h 0 (by simp) (by simp)
        simp only [List.getD_cons_zero] at h0
        rcases h0 with h0 | h0
        · exact absurd h0 (by simp)
        · have hw : w = c0 := by
            injection h0 with h0e
            exact h0e.symm
          obtain ⟨pool2, hp, hc⟩ := ih fs (pool.erase c0) (fun k hk1 hk2 => by
            have := h (k + 1) (by simpa using hk1) (by simpa using hk2)
            simpa using this)
          refine ⟨pool2, by simp [scanFound, hw, hp], fun c => ?_⟩
          have h1 := hc c
          have h2 := count_erase_eq c0 c pool
          rw [count_cons_some]
          by_cases hcc : c0 = c
          · rw [if_pos hcc] at h2 ⊢
            omega
          · rw [if_neg hcc] at h2 ⊢
            omega

lemma scanFound_matches (ws : List Char) (fs : List (Option Char)) (pool pool2 : List Char)
    (h : scanFound ws fs pool = some pool2) :
    ∀ k, k < ws.length → k < fs.length → ∀ c, fs.getD k none = some c → ws.getD k '?' = c := by
  induction ws generalizing fs pool with
  | nil => intro k hk; simp at hk
  | cons w ws ih =>
    cases fs with
    | nil => intro k _ hk; simp at hk
    | cons f fs =>
      intro k hk1 hk2 c hc
      cases f with
      | none =>
        cases k with
        | zero => simp at hc
        | succ n =>
          have h' : scanFound ws fs pool = some pool2 := by simpa [scanFound] using h
          have := ih fs pool h' n (by simpa using hk1) (by simpa using hk2) c (by simpa using hc)
          simpa using this
      | some c0 =>
        by_cases hw : w = c0
        · cases k with
          | zero =>
            simp only [List.getD_cons_zero] at hc ⊢
            simp only [Option.some.injEq] at hc
            rw [hw, hc]
          | succ n =>
            have h' : scanFound ws fs (pool.erase c0) = some pool2 := by
              simpa [scanFound, hw] using h
            have := ih fs (pool.erase c0) h' n (by simpa using hk1) (by simpa using hk2) c
              (by simpa using hc)
            simpa using this
        · simp [scanFound, hw] at h

lemma consumeLoose_of_counts (lo pool : List Char)
    (h : ∀ c, lo.count c ≤ pool.count c) : consumeLoose lo pool = true := by
  induction lo generalizing pool with
  | nil => rfl
  | cons l rest ih =>
    have hl : l ∈ pool := by
      have hcount := h l
      rw [count_cons_char, if_pos rfl] at hcount
      exact List.count_pos_iff.mp (by omega)
    simp only [consumeLoose, if_pos hl]
    refine ih (pool.erase l) fun c => ?_
    have hcount := h c
    have herase := count_erase_eq l c pool
    rw [count_cons_char] at hcount
    by_cases hlc : l = c
    · rw [if_pos hlc] at hcount herase
      omega
    · rw [if_neg hlc] at hcount herase
      omega

/-! ### Lemmas about the exact-match pass of `add_guess` -/

lemma bound_count_le (f : List (Option Char)) (T : List Char) (c : Char)
    (hlen : f.length ≤ T.length)
    (hf : ∀ j, f.getD j none = none ∨ f.getD j none = some (T.getD j '?')) :
    f.count (some c) ≤ T.count c := by
  induction f generalizing T with
  | nil => simp
  | cons v f ih =>
    cases T with
    | nil => simp at hlen
    | cons t T =>
      have h0 := hf 0
      simp only [List.getD_cons_zero] at h0
      have hshift : ∀ j, f.getD j none = none ∨ f.getD j none = some (T.getD j '?') := by
        intro j
        have := hf (j + 1)
        simpa using this
      have hrec := ih T (by simpa using hlen) hshift
      rcases h0 with h0 | h0
      · subst h0
        rw [count_cons_none, count_cons_char]
        omega
      · subst h0
        rw [count_cons_some, count_cons_char]
        by_cases htc : t = c
        · rw [if_pos htc]
          omega
        · rw [if_neg htc]
          omega

lemma set_inv1 (T : List Char) (f : List (Option Char)) (i : Nat) (c : Char)
    (hc : c = T.getD i '?')
    (hf : ∀ j, f.getD j none = none ∨ f.getD j none = some (T.getD j '?')) :
    ∀ j, (f.set i (some c)).getD j none = none ∨
      (f.set i (some c)).getD j none = some (T.getD j '?') := by
  intro j
  rw [getD_set_eq_ite]
  by_cases hcase : i = j ∧ j < f.length
  · rw [if_pos hcase]
    right
    rw [hc, hcase.1]
  · rw [if_neg hcase]
    exact hf j

lemma exactPass_length (i : Nat) (gs ts : List Char) (f : List (Option Char)) (lo : List Char) :
    (exactPass i gs ts f lo).1.length = f.length := by
  induction gs generalizing i ts f lo with
  | nil => rfl
  | cons g gs ih =>
    cases ts with
    | nil => rfl
    | cons t ts =>
      by_cases hgt : g = t
      · simp only [exactPass, if_pos hgt]
        rw [ih]
        exact List.length_set f i (some g)
      · simp only [exactPass, if_neg hgt]
        exact ih ..

lemma exactPass_inv1 (T : List Char) :
    ∀ (gs ts : List Char) (i : Nat) (f : List (Option Char)) (lo : List Char),
    (∀ k, k < ts.length → ts.getD k '?' = T.getD (i + k) '?') →
    (∀ j, f.getD j none = none ∨ f.getD j none = some (T.getD j '?')) →
    ∀ j, (exactPass i gs ts f lo).1.getD j none = none ∨
         (exactPass i gs ts f lo).1.getD j none = some (T.getD j '?') := by
  intro gs
  induction gs with
  | nil => intro ts i f lo _ hf j; exact hf j
  | cons g gs ih =>
    intro ts i f lo hal hf j
    cases ts with
    | nil => exact hf j
    | cons t ts =>
      have halshift : ∀ k, k < ts.length → ts.getD k '?' = T.getD (i + 1 + k) '?' := by
        intro k hk
        have h1 := hal (k + 1) (by simpa using hk)
        rw [List.getD_cons_succ] at h1
        have heq : i + (k + 1) = i + 1 + k := by omega
        rw [heq] at h1
        exact h1
      have ht0 : t = T.getD i '?' := by
        have := hal 0 (by simp)
        simpa using this
      by_cases hgt : g = t
      · simp only [exactPass, if_pos hgt]
        exact ih ts (i + 1) _ _ halshift (set_inv1 T f i g (hgt.trans ht0) hf) j
      · simp only [exactPass, if_neg hgt]
        exact ih ts (i + 1) f lo halshift hf j

lemma exactPass_keep (T : List Char) :
    ∀ (gs ts : List Char) (i : Nat) (f : List (Option Char)) (lo : List Char),
    (∀ k, k < ts.length → ts.getD k '?' = T.getD (i + k) '?') →
    (∀ j, f.getD j none = none ∨ f.getD j none = some (T.getD j '?')) →
    ∀ j c, f.getD j none = some c →
      (exactPass i gs ts f lo).1.getD j none = some c := by
  intro gs
  induction gs with
  | nil => intro ts i f lo _ _ j c hj; exact hj
  | cons g gs ih =>
    intro ts i f lo hal hf j c hj
    cases ts with
    | nil => exact hj
    | cons t ts =>
      have halshift : ∀ k, k < ts.length → ts.getD k '?' = T.getD (i + 1 + k) '?' := by
        intro k hk
        have h1 := hal (k + 1) (by simpa using hk)
        rw [List.getD_cons_succ] at h1
        have heq : i + (k + 1) = i + 1 + k := by omega
        rw [heq] at h1
        exact h1
      have ht0 : t = T.getD i '?' := by
        have := hal 0 (by simp)
        simpa using this
      by_cases hgt : g = t
      · simp only [exactPass, if_pos hgt]
        refine ih ts (i + 1) _ _ halshift (set_inv1 T f i g (hgt.trans ht0) hf) j c ?_
        rw [getD_set_eq_ite]
        by_cases hcase : i = j ∧ j < f.length
        · rw [if_pos hcase]
          rcases hf j with h1 | h1
          · rw [hj] at h1
            exact absurd h1 (by simp)
          · rw [hj] at h1
            injection h1 with h1e
            rw [h1e, ← hcase.1, hgt.trans ht0]
        · rw [if_neg hcase]
          exact hj
      · simp only [exactPass, if_neg hgt]
        exact ih ts (i + 1) f lo halshift hf j c hj

lemma exactPass_bind (T : List Char) :
    ∀ (gs ts : List Char) (i : Nat) (f : List (Option Char)) (lo : List Char),
    (∀ k, k < ts.length → ts.getD k '?' = T.getD (i + k) '?') →
    (∀ j, f.getD j none = none ∨ f.getD j none = some (T.getD j '?')) →
    ∀ k, k < gs.length → k < ts.length → gs.getD k '?' = ts.getD k '?' →
      i + k < f.length →
      (exactPass i gs ts f lo).1.getD (i + k) none = some (T.getD (i + k) '?') := by
  intro gs
  induction gs with
  | nil => intro ts i f lo _ _ k hk; simp at hk
  | cons g gs ih =>
    intro ts i f lo hal hf k hk1 hk2 hmatch hkf
    cases ts with
    | nil => simp at hk2
    | cons t ts =>
      have halshift : ∀ k, k < ts.length → ts.getD k '?' = T.getD (i + 1 + k) '?' := by
        intro k hk
        have h1 := hal (k + 1) (by simpa using hk)
        rw [List.getD_cons_succ] at h1
        have heq : i + (k + 1) = i + 1 + k := by omega
        rw [heq] at h1
        exact h1
      have ht0 : t = T.getD i '?' := by
        have := hal 0 (by simp)
        simpa using this
      cases k with
      | zero =>
        simp only [List.getD_cons_zero] at hmatch
        have hgt : g = t := hmatch
        simp only [exactPass, if_pos hgt]
        rw [Nat.add_zero] at hkf ⊢
        refine exactPass_keep T gs ts (i + 1) _ _ halshift
          (set_inv1 T f i g (hgt.trans ht0) hf) i (T.getD i '?') ?_
        rw [getD_set_eq_ite, if_pos ⟨rfl, hkf⟩, hgt.trans ht0]
      | succ n =>
        have hm : gs.getD n '?' = ts.getD n '?' := by simpa using hmatch
        have hin : i + 1 + n = i + (n + 1) := by omega
        by_cases hgt : g = t
        · simp only [exactPass, if_pos hgt]
          have := ih ts (i + 1) (f.set i (some g)) (lo.erase g) halshift
            (set_inv1 T f i g (hgt.trans ht0) hf) n (by simpa using hk1)
            (by simpa using hk2) hm (by rw [List.length_set]; omega)
          rw [hin] at this
          exact this
        · simp only [exactPass, if_neg hgt]
          have := ih ts (i + 1) f lo halshift hf n (by simpa using hk1)
            (by simpa using hk2) hm (by omega)
          rw [hin] at this
          exact this

lemma exactPass_inv2 (T : List Char) :
    ∀ (gs ts : List Char) (i : Nat) (f : List (Option Char)) (lo : List Char),
    (∀ k, k < ts.length → ts.getD k '?' = T.getD (i + k) '?') →
    (∀ j, f.getD j none = none ∨ f.getD j none = some (T.getD j '?')) →
    f.length ≤ T.length →
    i + min gs.length ts.length ≤ f.length →
    (∀ c, lo.count c + f.count (some c) ≤ T.count c) →
    ∀ c, (exactPass i gs ts f lo).2.count c +
      (exactPass i gs ts f lo).1.count (some c) ≤ T.count c := by
  intro gs
  induction gs with
  | nil => intro ts i f lo _ _ _ _ h2 c; exact h2 c
  | cons g gs ih =>
    intro ts i f lo hal hf hlen hwin h2 c
    cases ts with
    | nil => exact h2 c
    | cons t ts =>
      have halshift : ∀ k, k < ts.length → ts.getD k '?' = T.getD (i + 1 + k) '?' := by
        intro k hk
        have h1 := hal (k + 1) (by simpa using hk)
        rw [List.getD_cons_succ] at h1
        have heq : i + (k + 1) = i + 1 + k := by omega
        rw [heq] at h1
        exact h1
      have ht0 : t = T.getD i '?' := by
        have := hal 0 (by simp)
        simpa using this
      have hif : i < f.length := by
        simp only [List.length_cons] at hwin
        omega
      have hwinshift : i + 1 + min gs.length ts.length ≤ f.length := by
        simp only [List.length_cons] at hwin
        omega
      by_cases hgt : g = t
      · simp only [exactPass, if_pos hgt]
        refine ih ts (i + 1) (f.set i (some g)) (lo.erase g) halshift
          (set_inv1 T f i g (hgt.trans ht0) hf)
          (by rw [List.length_set]; exact hlen)
          (by rw [List.length_set]; exact hwinshift) ?_ c
        intro c'
        have hset := count_set_add f i (some g) (some c') none hif
        have hge : g = T.getD i '?' := hgt.trans ht0
        rcases hf i with hfi | hfi
        · rw [hfi, if_neg (by simp)] at hset
          by_cases hgc : g = c'
          · subst hgc
            rw [if_pos rfl] at hset
            rw [count_erase_eq, if_pos rfl]
            by_cases hlo : 1 ≤ lo.count g
            · have := h2 g
              omega
            · have hb := bound_count_le (f.set i (some g)) T g
                (by rw [List.length_set]; exact hlen)
                (set_inv1 T f i g hge hf)
              omega
          · rw [if_neg (by simpa using hgc)] at hset
            rw [count_erase_eq, if_neg hgc]
            have := h2 c'
            omega
        · have hfig : f.getD i none = some g := by rw [hfi, ← hge]
          rw [hfig] at hset
          rw [count_erase_eq]
          have := h2 c'
          by_cases hgc : g = c'
          · rw [if_pos hgc]
            rw [if_pos (show (some g : Option Char) = some c' by rw [hgc])] at hset
            omega
          · rw [if_neg hgc]
            rw [if_neg (show ¬((some g : Option Char) = some c') by simpa using hgc)] at hset
            omega
      · simp only [exactPass, if_neg hgt]
        exact ih ts (i + 1) f lo halshift hf hlen (by omega) h2 c

/-! ### Lemmas about the pool passes of `add_guess` -/

lemma poolPass_goal_count (guess : List Char) :
    ∀ (fs : List (Option Char)) (i : Nat) (goalL guessL : List Char) (c : Char),
    (poolPass guess i fs goalL guessL).1.count c
      = goalL.count c - min (goalL.count c) (fs.count (some c)) := by
  intro fs
  induction fs with
  | nil => intro i goalL guessL c; simp [poolPass]
  | cons v fs ih =>
    intro i goalL guessL c
    cases v with
    | none =>
      simp only [poolPass]
      rw [ih, count_cons_none]
    | some c0 =>
      simp only [poolPass]
      rw [ih, count_cons_some, count_erase_eq]
      by_cases hcc : c0 = c
      · rw [if_pos hcc]
        omega
      · rw [if_neg hcc]
        omega

lemma removeRepeats_count (gl : List Char) :
    ∀ (lo : List Char) (c : Char),
    (removeRepeats gl lo).count c = lo.count c - min (lo.count c) (gl.count c) := by
  induction gl with
  | nil => intro lo c; simp [removeRepeats]
  | cons l gl ih =>
    intro lo c
    simp only [removeRepeats]
    rw [ih, count_erase_eq, count_cons_char]
    by_cases hlc : l = c
    · rw [if_pos hlc]
      omega
    · rw [if_neg hlc]
      omega

lemma moveLoose_count (gl : List Char) :
    ∀ (lo goalL : List Char) (c : Char),
    (moveLoose gl lo goalL).1.count c = lo.count c + min (gl.count c) (goalL.count c) := by
  induction gl with
  | nil => intro lo goalL c; simp [moveLoose]
  | cons l gl ih =>
    intro lo goalL c
    by_cases hmem : l ∈ goalL
    · simp only [moveLoose, if_pos hmem]
      rw [ih, count_erase_eq, List.count_append, count_cons_char, count_cons_char]
      simp only [List.count_nil]
      have hpos : 0 < goalL.count l := List.count_pos_iff.mpr hmem
      by_cases hlc : l = c
      · subst hlc
        rw [if_pos rfl]
        omega
      · rw [if_neg hlc]
        omega
    · simp only [moveLoose, if_neg hmem]
      rw [ih, count_cons_char]
      have hzero : goalL.count l = 0 := List.count_eq_zero.mpr hmem
      by_cases hlc : l = c
      · subst hlc
        rw [if_pos rfl]
        omega
      · rw [if_neg hlc]
        omega

lemma addInvalid_mem (goal : List Char) :
    ∀ (gs inv : List Char) (l : Char), l ∈ addInvalid goal gs inv →
      l ∈ inv ∨ l ∉ goal := by
  intro gs
  induction gs with
  | nil => intro inv l h; exact Or.inl h
  | cons g gs ih =>
    intro inv l h
    simp only [addInvalid] at h
    rcases ih _ l h with h1 | h1
    · by_cases hg : g ∈ goal
      · rw [if_pos hg] at h1
        exact Or.inl h1
      · rw [if_neg hg] at h1
        by_cases hgi : g ∈ inv
        · rw [if_pos hgi] at h1
          exact Or.inl h1
        · rw [if_neg hgi] at h1
          rcases List.mem_append.mp h1 with h2 | h2
          · exact Or.inl h2
          · have h3 : l = g := by simpa using h2
            subst h3
            exact Or.inr hg
    · exact Or.inr h1

/-! ### Field equations for `add_guess` and a congruence for `check_word` -/

lemma addGuess_found (s : GameState) (guess goal : List Char) :
    (addGuess s guess goal).found_letters = (updState s guess goal).found_letters := rfl

lemma addGuess_loose (s : GameState) (guess goal : List Char) :
    (addGuess s guess goal).loose_letters = (updState s guess goal).loose_letters := rfl

lemma addGuess_invalid (s : GameState) (guess goal : List Char) :
    (addGuess s guess goal).invalid_letters = (updState s guess goal).invalid_letters := rfl

lemma addGuess_guesses (s : GameState) (guess goal : List Char) :
    (addGuess s guess goal).guesses = (updState s guess goal).guesses := rfl

lemma addGuess_valid (s : GameState) (guess goal : List Char) :
    (addGuess s guess goal).valid_guesses
      = s.valid_guesses.filter fun w => checkWord (updState s guess goal) w := rfl

lemma updState_found (s : GameState) (guess goal : List Char) :
    (updState s guess goal).found_letters
      = (exactPass 0 guess goal s.found_letters s.loose_letters).1 := rfl

lemma updState_guesses (s : GameState) (guess goal : List Char) :
    (updState s guess goal).guesses = s.guesses ++ [guess] := rfl

lemma updState_invalid (s : GameState) (guess goal : List Char) :
    (updState s guess goal).invalid_letters = addInvalid goal guess s.invalid_letters := rfl

lemma checkWord_congr (s t : GameState) (w : List Char)
    (h1 : s.found_letters = t.found_letters) (h2 : s.loose_letters = t.loose_letters)
    (h3 : s.invalid_letters = t.invalid_letters) (h4 : s.guesses = t.guesses) :
    checkWord s w = checkWord t w := by
  cases s
  cases t
  simp only at h1 h2 h3 h4
  subst h1 h2 h3 h4
  rfl

/-! ### The honest-update invariant -/

/-- Everything the honest updates maintain about a state reached with goal
word `goal` (of length 5) and guesses drawn from `corpus`: found slots are
unbound or bound to the goal's letter at that position; per letter, loose
multiplicity plus bound multiplicity never exceeds the goal's multiplicity;
invalid letters do not occur in the goal; guesses are corpus words; and any
position where a past guess agrees with the goal is bound. -/
def StateInv (corpus : List (List Char)) (goal : List Char) (s : GameState) : Prop :=
  s.found_letters.length = 5 ∧
  (∀ j, s.found_letters.getD j none = none ∨
    s.found_letters.getD j none = some (goal.getD j '?')) ∧
  (∀ c, s.loose_letters.count c + s.found_letters.count (some c) ≤ goal.count c) ∧
  (∀ l ∈ s.invalid_letters, l ∉ goal) ∧
  (∀ g ∈ s.guesses, g ∈ corpus) ∧
  (∀ g ∈ s.guesses, ∀ i, i < 5 → g.getD i '?' = goal.getD i '?' →
    s.found_letters.getD i none = some (goal.getD i '?'))

lemma inv_init (corpus : List (List Char)) (goal : List Char) :
    StateInv corpus goal (initState corpus) := by
  refine ⟨rfl, ?_, ?_, ?_, ?_, ?_⟩
  · intro j
    left
    rcases j with _ | _ | _ | _ | _ | j <;> rfl
  · intro c
    have h1 : (initState corpus).loose_letters.count c = 0 := rfl
    have h2 : (initState corpus).found_letters.count (some c) = 0 := by
      simp [initState, List.count_cons]
    rw [h1, h2]
    exact Nat.zero_le _
  · intro l hl
    simp [initState] at hl
  · intro g hg
    simp [initState] at hg
  · intro g hg
    simp [initState] at hg

lemma inv_step (corpus : List (List Char)) (goal : List Char) (s : GameState)
    (guess : List Char)
    (hcorp : ∀ w ∈ corpus, w.length = 5)
    (hgoal : goal.length = 5)
    (hguess : guess ∈ corpus)
    (hinv : StateInv corpus goal s) :
    StateInv corpus goal (updState s guess goal) := by
  obtain ⟨hlen, hf1, hf2, hf3, hf4, hf5⟩ := hinv
  have hglen : guess.length = 5 := hcorp guess hguess
  have hal : ∀ k, k < goal.length → goal.getD k '?' = goal.getD (0 + k) '?' := by
    intro k _
    rw [Nat.zero_add]
  have hlenle : s.found_letters.length ≤ goal.length := by omega
  have hwin : 0 + min guess.length goal.length ≤ s.found_letters.length := by omega
  have hep1 := exactPass_inv1 goal guess goal 0 s.found_letters s.loose_letters hal hf1
  have heplen := exactPass_length 0 guess goal s.found_letters s.loose_letters
  refine ⟨?_, ?_, ?_, ?_, ?_, ?_⟩
  · rw [updState_found, heplen, hlen]
  · rw [updState_found]
    exact hep1
  · intro c
    rw [updState_found]
    have hep2 := exactPass_inv2 goal guess goal 0 s.found_letters s.loose_letters
      hal hf1 hlenle hwin hf2 c
    have hbc := bound_count_le (exactPass 0 guess goal s.found_letters s.loose_letters).1
      goal c (by rw [heplen]; omega) hep1
    have hgoalL := poolPass_goal_count guess
      (exactPass 0 guess goal s.found_letters s.loose_letters).1 0 goal
      guess c
    have hrr := removeRepeats_count
      (poolPass guess 0 (exactPass 0 guess goal s.found_letters s.loose_letters).1
        goal guess).2
      (exactPass 0 guess goal s.found_letters s.loose_letters).2 c
    have hml := moveLoose_count
      (poolPass guess 0 (exactPass 0 guess goal s.found_letters s.loose_letters).1
        goal guess).2
      (removeRepeats
        (poolPass guess 0 (exactPass 0 guess goal s.found_letters s.loose_letters).1
          goal guess).2
        (exactPass 0 guess goal s.found_letters s.loose_letters).2)
      (poolPass guess 0 (exactPass 0 guess goal s.found_letters s.loose_letters).1
        goal guess).1 c
    have hloose : (updState s guess goal).loose_letters.count c
        = (removeRepeats
            (poolPass guess 0 (exactPass 0 guess goal s.found_letters s.loose_letters).1
              goal guess).2
            (exactPass 0 guess goal s.found_letters s.loose_letters).2).count c
          + min
            ((poolPass guess 0 (exactPass 0 guess goal s.found_letters s.loose_letters).1
              goal guess).2.count c)
            ((poolPass guess 0 (exactPass 0 guess goal s.found_letters s.loose_letters).1
              goal guess).1.count c) := hml
    rw [hloose, hrr, hgoalL]
    omega
  · intro l hl
    rw [updState_invalid] at hl
    rcases addInvalid_mem goal guess s.invalid_letters l hl with h1 | h1
    · exact hf3 l h1
    · exact h1
  · intro g hg
    rw [updState_guesses] at hg
    rcases List.mem_append.mp hg with h1 | h1
    · exact hf4 g h1
    · have : g = guess := by simpa using h1
      subst this
      exact hguess
  · intro g hg i hi5 hmatch
    rw [updState_guesses] at hg
    rw [updState_found]
    rcases List.mem_append.mp hg with h1 | h1
    · exact exactPass_keep goal guess goal 0 s.found_letters s.loose_letters hal hf1 i
        (goal.getD i '?') (hf5 g h1 i hi5 hmatch)
    · have hgg : g = guess := by simpa using h1
      rw [hgg] at hmatch
      have := exactPass_bind goal guess goal 0 s.found_letters s.loose_letters hal hf1 i
        (by omega) (by omega) hmatch (by omega)
      rw [Nat.zero_add] at this
      exact this

lemma inv_addGuess (corpus : List (List Char)) (goal : List Char) (s : GameState)
    (guess : List Char)
    (hcorp : ∀ w ∈ corpus, w.length = 5)
    (hgoal : goal.length = 5)
    (hguess : guess ∈ corpus)
    (hinv : StateInv corpus goal s) :
    StateInv corpus goal (addGuess s guess goal) :=
  inv_step corpus goal s guess hcorp hgoal hguess hinv

lemma inv_reachable (corpus : List (List Char)) (goal : List Char) (s : GameState)
    (hcorp : ∀ w ∈ corpus, w.length = 5) (hgoal : goal.length = 5)
    (h : Reachable corpus goal s) : StateInv corpus goal s := by
  induction h with
  | init => exact inv_init corpus goal
  | step hr hw ih => exact inv_addGuess _ _ _ _ hcorp hgoal hw ih

/-! ### The evaluator accepts the goal word; initial-state facts -/

lemma checkWord_goal (corpus : List (List Char)) (goal : List Char) (s : GameState)
    (hgoal : goal.length = 5) (hinv : StateInv corpus goal s) :
    checkWord s goal = true := by
  obtain ⟨hlen, hf1, hf2, hf3, hf4, hf5⟩ := hinv
  have hstage1 : (goal.any fun l => decide (l ∈ s.invalid_letters)) = false := by
    rw [List.any_eq_false]
    intro x hx
    simp only [decide_eq_true_eq]
    intro hmem
    exact hf3 x hmem hx
  obtain ⟨pool2, hscan, hcount⟩ := scanFound_succeeds goal s.found_letters goal
    (fun k _ _ => hf1 k)
  have hcl : consumeLoose s.loose_letters pool2 = true := by
    refine consumeLoose_of_counts _ _ fun c => ?_
    have h1 := hcount c
    have h2 := hf2 c
    omega
  have hrep : ∀ g ∈ s.guesses, repeatHit s.found_letters goal g = false := by
    intro g hg
    rw [repeatHit, List.any_eq_false]
    intro i hi
    rw [List.mem_range] at hi
    have hi5 : i < 5 := by
      rw [hgoal, hlen] at hi
      omega
    intro hcontra
    rw [Bool.and_eq_true] at hcontra
    obtain ⟨h1, h2⟩ := hcontra
    rw [decide_eq_true_eq] at h2
    have h3 := hf5 g hg i hi5 h2.symm
    rw [Option.isNone_iff_eq_none] at h1
    rw [h1] at h3
    exact absurd h3 (by simp)
  have hany : (s.guesses.any fun g => repeatHit s.found_letters goal g) = false := by
    rw [List.any_eq_false]
    intro g hg
    simp [hrep g hg]
  rw [checkWord, hstage1]
  simp only [Bool.false_eq_true, if_false, hscan, hcl, if_true, hany, Bool.not_false]

lemma scanFound_allnone : ∀ (ws : List Char) (fs : List (Option Char)) (pool : List Char),
    (∀ x ∈ fs, x = none) → scanFound ws fs pool = some pool := by
  intro ws
  induction ws with
  | nil => intro fs pool _; cases fs <;> rfl
  | cons w ws ih =>
    intro fs pool h
    cases fs with
    | nil => rfl
    | cons f fs =>
      have hf : f = none := h f (by simp)
      subst hf
      simp only [scanFound]
      exact ih fs pool fun x hx => h x (by simp [hx])

lemma checkWord_init (corpus : List (List Char)) (w : List Char) :
    checkWord (initState corpus) w = true := by
  have h1 : (w.any fun l => decide (l ∈ (initState corpus).invalid_letters)) = false := by
    rw [List.any_eq_false]
    intro x _
    simp [initState]
  have h2 : scanFound w (initState corpus).found_letters w = some w := by
    refine scanFound_allnone w _ w fun x hx => ?_
    simp only [initState] at hx
    simp only [List.mem_cons, List.not_mem_nil, or_false] at hx
    rcases hx with h | h | h | h | h <;> exact h
  rw [checkWord, h1]
  simp only [Bool.false_eq_true, if_false, h2]
  have h3 : consumeLoose (initState corpus).loose_letters w = true := rfl
  rw [h3]
  simp [initState]

/-! ### Reachable states: the goal survives, candidates stay corpus words -/

lemma target_in_valid (corpus : List (List Char)) (goal : List Char) (s : GameState)
    (hcorp : ∀ w ∈ corpus, w.length = 5) (hmem : goal ∈ corpus)
    (h : Reachable corpus goal s) :
    goal ∈ s.valid_guesses := by
  induction h with
  | init => exact hmem
  | @step s' w hr hw ih =>
    rw [addGuess_valid]
    refine List.mem_filter.mpr ⟨ih, ?_⟩
    exact checkWord_goal corpus goal (updState s' w goal) (hcorp goal hmem)
      (inv_step corpus goal s' w hcorp (hcorp goal hmem) hw
        (inv_reachable corpus goal s' hcorp (hcorp goal hmem) hr))

lemma valid_subset (corpus : List (List Char)) (goal : List Char) (s : GameState)
    (h : Reachable corpus goal s) :
    ∀ w ∈ s.valid_guesses, w ∈ corpus ∧ checkWord s w = true := by
  induction h with
  | init => exact fun w hw => ⟨hw, checkWord_init corpus w⟩
  | @step s' g hr hg ih =>
    intro w hw
    rw [addGuess_valid] at hw
    obtain ⟨hw1, hw2⟩ := List.mem_filter.mp hw
    refine ⟨(ih w hw1).1, ?_⟩
    rw [checkWord_congr (addGuess s' g goal) (updState s' g goal) w
      (addGuess_found s' g goal) (addGuess_loose s' g goal)
      (addGuess_invalid s' g goal) (addGuess_guesses s' g goal)]
    exact hw2

/-! ### Decomposition of the evaluator and rejection of past guesses -/

lemma checkWord_eq (s : GameState) (w : List Char) :
    checkWord s w = (invalidCheck s w && foundLooseCheck s w && repeatMissFree s w) := by
  rw [checkWord, invalidCheck, foundLooseCheck, repeatMissFree]
  cases h1 : (w.any fun l => decide (l ∈ s.invalid_letters)) with
  | true => simp
  | false =>
    simp only [Bool.false_eq_true, if_false, Bool.not_false, Bool.true_and]
    cases hscan : scanFound w s.found_letters w with
    | none => rfl
    | some pool =>
      cases h2 : consumeLoose s.loose_letters pool with
      | true => simp
      | false => simp

lemma checkWord_guessed_false (corpus : List (List Char)) (goal : List Char) (s : GameState)
    (hcorp : ∀ w ∈ corpus, w.length = 5) (hgoal : goal.length = 5)
    (hinv : StateInv corpus goal s) (g : List Char) (hg : g ∈ s.guesses)
    (hne : g ≠ goal) : checkWord s g = false := by
  obtain ⟨hlen, hf1, hf2, hf3, hf4, hf5⟩ := hinv
  have hglen : g.length = 5 := hcorp g (hf4 g hg)
  obtain ⟨i, hi5, hne2⟩ := exists_getD_ne g goal (by omega) hne
  rw [hglen] at hi5
  rcases hf1 i with hslot | hslot
  · rw [checkWord_eq]
    have hhit : repeatHit s.found_letters g g = true := by
      rw [repeatHit, List.any_eq_true]
      refine ⟨i, ?_, ?_⟩
      · rw [List.mem_range, hglen, hlen]
        omega
      · rw [hslot]
        simp
    have hmf : repeatMissFree s g = false := by
      have hany : (s.guesses.any fun g' => repeatHit s.found_letters g g') = true :=
        List.any_eq_true.mpr ⟨g, hg, hhit⟩
      rw [repeatMissFree, hany]
      rfl
    rw [hmf]
    simp
  · rw [checkWord_eq]
    have hflc : foundLooseCheck s g = false := by
      rw [foundLooseCheck]
      cases hscan : scanFound g s.found_letters g with
      | none => rfl
      | some pool =>
        exfalso
        exact hne2 (scanFound_matches g s.found_letters g pool hscan i (by omega) (by omega)
          (goal.getD i '?') hslot)
    rw [hflc]
    simp

/-! ### Lemmas about the game loop -/

lemma playGameAux_ge (policy : GameState → List Char) (goal : List Char) :
    ∀ (fuel turn : Nat) (s : GameState), turn ≤ playGameAux policy goal fuel turn s := by
  intro fuel
  induction fuel with
  | zero => intro turn s; exact Nat.le_refl turn
  | succ n ih =>
    intro turn s
    simp only [playGameAux]
    by_cases h : policy s = goal
    · rw [if_pos h]
      omega
    · rw [if_neg h]
      have := ih (turn + 1) (addGuess s (policy s) goal)
      omega

lemma playGameAux_le (policy : GameState → List Char) (goal : List Char) :
    ∀ (fuel turn : Nat) (s : GameState), playGameAux policy goal fuel turn s ≤ turn + fuel := by
  intro fuel
  induction fuel with
  | zero => intro turn s; exact Nat.le_refl turn
  | succ n ih =>
    intro turn s
    simp only [playGameAux]
    by_cases h : policy s = goal
    · rw [if_pos h]
      omega
    · rw [if_neg h]
      have := ih (turn + 1) (addGuess s (policy s) goal)
      omega

lemma playGameAux_pos (policy : GameState → List Char) (goal : List Char)
    (fuel turn : Nat) (s : GameState) (h : 0 < fuel) :
    turn + 1 ≤ playGameAux policy goal fuel turn s := by
  cases fuel with
  | zero => omega
  | succ n =>
    simp only [playGameAux]
    by_cases hg : policy s = goal
    · rw [if_pos hg]
    · rw [if_neg hg]
      have := playGameAux_ge policy goal n (turn + 1) (addGuess s (policy s) goal)
      omega

lemma playGameAux_none (policy : GameState → List Char) (goal : List Char) :
    ∀ (fuel : Nat) (s : GameState) (turn : Nat),
      (∀ j, j < fuel → policy (stateFrom policy goal s j) ≠ goal) →
      playGameAux policy goal fuel turn s = turn + fuel := by
  intro fuel
  induction fuel with
  | zero => intro s turn _; rfl
  | succ n ih =>
    intro s turn h
    have h0 : policy s ≠ goal := h 0 (by omega)
    simp only [playGameAux]
    rw [if_neg h0]
    have := ih (addGuess s (policy s) goal) (turn + 1) fun j hj => h (j + 1) (by omega)
    omega

lemma playGameAux_win (policy : GameState → List Char) (goal : List Char) :
    ∀ (t fuel : Nat) (s : GameState) (turn : Nat),
      t < fuel →
      (∀ j, j < t → policy (stateFrom policy goal s j) ≠ goal) →
      policy (stateFrom policy goal s t) = goal →
      playGameAux policy goal fuel turn s = turn + t + 1 := by
  intro t
  induction t with
  | zero =>
    intro fuel s turn hf _ hwin
    cases fuel with
    | zero => omega
    | succ n =>
      have hwin' : policy s = goal := hwin
      simp only [playGameAux]
      rw [if_pos hwin']
  | succ n ih =>
    intro fuel s turn hf hmiss hwin
    cases fuel with
    | zero => omega
    | succ m =>
      have h0 : policy s ≠ goal := hmiss 0 (by omega)
      simp only [playGameAux]
      rw [if_neg h0]
      have := ih m (addGuess s (policy s) goal) (turn + 1) (by omega)
        (fun j hj => hmiss (j + 1) (by omega)) hwin
      omega

/-! ### Concrete words, corpora and states used in witnesses and counterexamples -/

def wCrane : List Char := ['c','r','a','n','e']

def wSlate : List Char := ['s','l','a','t','e']

def wGrace : List Char := ['g','r','a','c','e']

def wCrash : List Char := ['c','r','a','s','h']

def wAabcd : List Char := ['a','a','b','c','d']

def wAeafg : List Char := ['a','e','a','f','g']

def wAhijk : List Char := ['a','h','i','j','k']

def wAbcdb : List Char := ['a','b','c','d','b']

def wLlama : List Char := ['l','l','a','m','a']

def wAaaaa : List Char := ['a','a','a','a','a']

/-- Corpus of the C2 counterexample. -/
def cexCorpus : List (List Char) := [wAabcd, wAeafg, wAhijk, wAbcdb]

/-- State reached from a fresh game by the honest guesses `aeafg`, `ahijk`
against the goal `aabcd`. -/
def cexS2 : GameState :=
  addGuess (addGuess (initState cexCorpus) wAeafg wAabcd) wAhijk wAabcd

/-- Two-word corpus containing the goal `crane` and the guess `slate`. -/
def w3Corpus : List (List Char) := [wCrane, wSlate]

/-- State reached from a fresh game by honestly guessing `slate` against the
goal `crane`. -/
def w3State : GameState := addGuess (initState w3Corpus) wSlate wCrane

/-- Corpus for the V5 evaluation. -/
def v5Corpus : List (List Char) := [wCrane, wSlate, wGrace]

/-- Three-word corpus over a two-letter alphabet for the V4 dispatch. -/
def c5Corpus : List (List Char) := [['a','a'], ['b','b'], ['a','b']]

/-- A state with exactly 3 recorded guesses whose candidate list is
`[aa, bb]`: V2 picks `aa`, V3 picks the corpus-wide argmax `ab`. -/
def c5State : GameState :=
  ⟨[none, none], [], [], [['a','a'], ['a','a'], ['a','a']], [['a','a'], ['b','b']]⟩

/-- The same constraints as `c5State` with no recorded guesses. -/
def c5StateEarly : GameState :=
  ⟨[none, none], [], [], [], [['a','a'], ['b','b']]⟩

/-- The same constraints as `c5State` with 4 recorded guesses. -/
def c5StateLate : GameState :=
  ⟨[none, none], [], [], [['a','a'], ['a','a'], ['a','a'], ['a','a']],
    [['a','a'], ['b','b']]⟩

/-- A state whose only constraint is the single past guess `crane`. -/
def c6State : GameState := ⟨[none, none, none, none, none], [], [], [wCrane], []⟩

/-- One-word corpus for the C7 counterexample. -/
def c7Corpus : List (List Char) := [wCrane]

/-- State honestly reached by guessing the target itself. -/
def c7State : GameState := addGuess (initState c7Corpus) wCrane wCrane

/-- One-word corpus for the V1 exhaustion witness. -/
def c9Corpus : List (List Char) := [wAaaaa]

/-- A state whose invalid set rules out the whole corpus. -/
def c9State : GameState := ⟨[none, none, none, none, none], [], ['a'], [], c9Corpus⟩

/-! ## Claim theorems -/

/-- C1: `pick_best_word_v5` does not return a corpus word at all: it returns
`min(word_scores)` — the smallest of the computed average candidate counts, a
number.  On the corpus `[crane, slate, grace]` from a fresh state the three
averages are `1`, `5/3` and `1`, and the function returns the number `1`,
not a word. -/
theorem c1_v5_returns_min_score :
    v5Corpus.map (evalWordV5 v5Corpus (initState v5Corpus)) = [1, mkRat 5 3, 1] ∧
    pickBestWordV5 v5Corpus (initState v5Corpus) = some 1 :=
  ⟨by decide, by decide⟩

/-- C2 counterexample: after the honest guesses `aeafg` and `ahijk` against
the goal `aabcd`, the incrementally maintained candidate list is `[aabcd]`,
while filtering the full corpus through the evaluator at the final state also
keeps `abcdb`: re-binding the already-found `a` dropped the loose `a`, the
constraints loosened, and a word eliminated earlier satisfies the final
state's evaluator without being a candidate. -/
theorem c2_incremental_ne_full_filter :
    Reachable cexCorpus wAabcd cexS2 ∧
    cexS2.valid_guesses = [wAabcd] ∧
    cexCorpus.filter (fun w => checkWord cexS2 w) = [wAabcd, wAbcdb] ∧
    cexS2.valid_guesses ≠ cexCorpus.filter fun w => checkWord cexS2 w :=
  ⟨Reachable.step (Reachable.step Reachable.init (by decide)) (by decide),
    by decide, by decide, by decide⟩

/-- C2 amended: in every reachable state the incrementally maintained
candidate list is a subset of the full-corpus filter — every candidate is a
corpus word accepted by the evaluator at the current state — but the two
lists need not be equal. -/
theorem c2_amended_valid_subset_of_filter (corpus : List (List Char))
    (goal : List Char) (s : GameState) (h : Reachable corpus goal s) :
    ∀ w ∈ s.valid_guesses, w ∈ corpus.filter fun x => checkWord s x := by
  intro w hw
  exact List.mem_filter.mpr (valid_subset corpus goal s h w hw)

theorem c2_amended_witness :
    wCrane ∈ w3Corpus.filter fun x => checkWord w3State x :=
  c2_amended_valid_subset_of_filter w3Corpus wCrane w3State
    (Reachable.step Reachable.init (by decide)) wCrane (by decide)

/-- C3: with honest updates the target always satisfies the evaluator and
remains in the candidate list, at every reachable state. -/
theorem c3_target_never_excluded (corpus : List (List Char)) (goal : List Char)
    (s : GameState) (hcorp : ∀ w ∈ corpus, w.length = 5) (hmem : goal ∈ corpus)
    (h : Reachable corpus goal s) :
    checkWord s goal = true ∧ goal ∈ s.valid_guesses :=
  ⟨checkWord_goal corpus goal s (hcorp goal hmem)
      (inv_reachable corpus goal s hcorp (hcorp goal hmem) h),
    target_in_valid corpus goal s hcorp hmem h⟩

theorem c3_witness :
    checkWord w3State wCrane = true ∧ wCrane ∈ w3State.valid_guesses :=
  c3_target_never_excluded w3Corpus wCrane w3State (by decide) (by decide)
    (Reachable.step Reachable.init (by decide))

/-- C4 counterexample: on the one-word collection `[llama]`,
`get_letter_scores` maps `l` to 2 (its raw occurrence count) although
exactly 1 word of the collection contains `l`. -/
theorem c4_llama_counts_occurrences :
    getLetterScores [wLlama] 'l' = 2 ∧
    (List.countP (fun w => decide ('l' ∈ w)) [wLlama]) = 1 ∧ (2 : Nat) ≠ 1 :=
  ⟨by decide, by decide, by decide⟩

/-- C4 amended: `get_letter_scores` maps each letter to the total number of
its occurrences across all words of the collection, so a word containing the
same letter twice contributes 2, not 1, to that letter's count. -/
theorem c4_amended_occurrence_count (ws : List (List Char)) (c : Char) :
    getLetterScores ws c = (ws.map fun w => w.count c).sum := by
  induction ws with
  | nil => rfl
  | cons w ws ih =>
    show ((w :: ws).flatten).count c = _
    rw [List.flatten_cons, List.count_append, List.map_cons, List.sum_cons]
    have ih2 : (ws.flatten).count c = (ws.map fun w => w.count c).sum := ih
    omega

/-- C5 counterexample: a state with exactly 3 recorded guesses on which V4
still answers with V3's choice (`ab`, the corpus-wide argmax) rather than
V2's choice (`aa`, the argmax within the candidates): the switch happens
after 4 turns, not 3. -/
theorem c5_three_guesses_still_v3 :
    c5State.guesses.length = 3 ∧
    pickBestWordV4 c5Corpus c5State = pickBestWordV3 c5Corpus c5State ∧
    pickBestWordV4 c5Corpus c5State = some ['a','b'] ∧
    pickBestWordV2 c5State = some ['a','a'] ∧
    pickBestWordV4 c5Corpus c5State ≠ pickBestWordV2 c5State :=
  ⟨by decide, by decide, by decide, by decide, by decide⟩

/-- C5 amended: V4 follows V3's rule while fewer than 4 guesses are recorded
(its first four turns) and V2's rule on every later turn. -/
theorem c5_amended_switch_after_four (corpus : List (List Char)) (s : GameState) :
    (s.guesses.length < 4 → pickBestWordV4 corpus s = pickBestWordV3 corpus s) ∧
    (4 ≤ s.guesses.length → pickBestWordV4 corpus s = pickBestWordV2 s) := by
  constructor
  · intro h
    simp only [pickBestWordV4]
    rw [if_pos h]
  · intro h
    simp only [pickBestWordV4]
    rw [if_neg (by omega)]

theorem c5_amended_witness :
    pickBestWordV4 c5Corpus c5StateEarly = pickBestWordV3 c5Corpus c5StateEarly ∧
    pickBestWordV4 c5Corpus c5StateLate = pickBestWordV2 c5StateLate :=
  ⟨(c5_amended_switch_after_four c5Corpus c5StateEarly).1 (by decide),
    (c5_amended_switch_after_four c5Corpus c5StateLate).2 (by decide)⟩

/-- C6 counterexample: with one past guess `crane` and no other constraints,
the word `crash` passes the spec's checks 1–4, yet the standard evaluator
used for candidate filtering rejects it — the repeat-at-unbound-position
check runs unconditionally, not only in hard mode. -/
theorem c6_repeat_check_not_hard_mode_only :
    passesChecks14 c6State wCrash = true ∧ checkWord c6State wCrash = false :=
  ⟨by decide, by decide⟩

/-- C6 amended: the repeat-at-unbound-position check is part of the standard
evaluator: `check_word` accepts exactly the words that pass the invalid-,
found- and loose-letter checks and additionally repeat no letter of any past
guess at a position not bound in `found`. -/
theorem c6_amended_repeat_check_always_on (s : GameState) (w : List Char) :
    checkWord s w = (invalidCheck s w && foundLooseCheck s w && repeatMissFree s w) :=
  checkWord_eq s w

/-- C7 counterexample: the state honestly reached by `add_guess(crane, crane)`
has `crane` in `guesses`, yet `check_word` accepts it — the evaluator has no
explicit already-guessed check, and with every slot bound the repeat loop
never fires. -/
theorem c7_already_guessed_accepted :
    Reachable c7Corpus wCrane c7State ∧
    wCrane ∈ c7State.guesses ∧ checkWord c7State wCrane = true :=
  ⟨Reachable.step Reachable.init (by decide), by decide, by decide⟩

/-- C7 amended: in every reachable state the evaluator rejects every past
guess except the target itself. -/
theorem c7_amended_rejects_other_guesses (corpus : List (List Char))
    (goal : List Char) (s : GameState) (g : List Char)
    (hcorp : ∀ w ∈ corpus, w.length = 5) (hgoal : goal.length = 5)
    (h : Reachable corpus goal s) (hg : g ∈ s.guesses) (hne : g ≠ goal) :
    checkWord s g = false :=
  checkWord_guessed_false corpus goal s hcorp hgoal
    (inv_reachable corpus goal s hcorp hgoal h) g hg hne

theorem c7_amended_witness : checkWord w3State wSlate = false :=
  c7_amended_rejects_other_guesses w3Corpus wCrane w3State wSlate
    (by decide) (by decide) (Reachable.step Reachable.init (by decide))
    (by decide) (by decide)

/-- C8: `play_game` always returns a turn count between 1 and `MAX_TURNS`;
when the policy first produces the goal on turn `t + 1` within the cap the
count is `t + 1`, and when no guess within the cap equals the goal the count
is `MAX_TURNS` itself. -/
theorem c8_play_game_spec (policy : GameState → List Char) (goal : List Char)
    (corpus : List (List Char)) :
    (1 ≤ playGame policy goal corpus ∧ playGame policy goal corpus ≤ MAX_TURNS) ∧
    (∀ t, t < MAX_TURNS → (∀ k, k < t → guessAt policy goal corpus k ≠ goal) →
      guessAt policy goal corpus t = goal → playGame policy goal corpus = t + 1) ∧
    ((∀ k, k < MAX_TURNS → guessAt policy goal corpus k ≠ goal) →
      playGame policy goal corpus = MAX_TURNS) := by
  refine ⟨⟨?_, ?_⟩, ?_, ?_⟩
  · have := playGameAux_pos policy goal MAX_TURNS 0 (initState corpus) (by decide)
    simpa [playGame] using this
  · have := playGameAux_le policy goal MAX_TURNS 0 (initState corpus)
    simpa [playGame] using this
  · intro t ht hmiss hwin
    have := playGameAux_win policy goal t MAX_TURNS (initState corpus) 0 ht hmiss hwin
    simpa [playGame] using this
  · intro hmiss
    have := playGameAux_none policy goal MAX_TURNS (initState corpus) 0 hmiss
    simpa [playGame] using this

theorem c8_witness : playGame (fun _ => wCrane) wCrane [wCrane] = 1 :=
  (c8_play_game_spec (fun _ => wCrane) wCrane [wCrane]).2.1 0 (by decide)
    (fun k hk => absurd hk (Nat.not_lt_zero k)) (by decide)

/-- C9: when no word of the precomputed descending-score order satisfies the
evaluator, V1 produces no word (`next` raises `StopIteration`); it never
falls back to an arbitrary or default word. -/
theorem c9_v1_exhaustion_raises (corpus : List (List Char)) (s : GameState)
    (h : ∀ w ∈ sortedWords corpus, checkWord s w = false) :
    pickBestWordV1 corpus s = none := by
  simp only [pickBestWordV1]
  rw [List.find?_eq_none]
  intro w hw
  rw [h w hw]
  simp

theorem c9_witness : pickBestWordV1 c9Corpus c9State = none :=
  c9_v1_exhaustion_raises c9Corpus c9State (by decide)

/-- C10: `clone` copies the four constraint fields but leaves `valid_guesses`
to the dataclass default — the full word list — so a clone's candidate list
is the entire corpus regardless of how far the source state had narrowed
its own. -/
theorem c10_clone_resets_candidates (corpus : List (List Char)) (s : GameState) :
    (cloneState corpus s).found_letters = s.found_letters ∧
    (cloneState corpus s).loose_letters = s.loose_letters ∧
    (cloneState corpus s).invalid_letters = s.invalid_letters ∧
    (cloneState corpus s).guesses = s.guesses ∧
    (cloneState corpus s).valid_guesses = corpus :=
  ⟨rfl, rfl, rfl, rfl, rfl⟩
